import Mathlib

/-!
# Verification of the Country MMDB compaction pipeline

A shallow embedding of `scripts/Country_mmdb.py`: the script filters the
entries of a source MMDB database by country code, counts retained entries
per country, and writes a compacted database.  The script delegates trie
reading, network merging and serialization to external libraries; those
engine parts are modelled from the specification (TrieReader, RecordFilter,
NetworkNormalizer, DataDeduplicator, TrieWriter) and are marked
`Modelled from the spec:` in their doc comments.  Everything else is a
direct translation of the Python source.
-/

/-! ## Attribute records (the decoded MMDB data values)

A record is a Python dict as produced by `maxminddb`: string keys mapping to
either strings or nested dicts (the spec's `Map`/`String` attribute
variants, which are the shapes the script touches). -/

mutual

/-- A decoded attribute value: a string or a nested map. -/
inductive Value where
  | str : String → Value
  | vmap : Fields → Value
deriving DecidableEq

/-- The ordered key/value fields of a map value (a Python dict). -/
inductive Fields where
  | fnil : Fields
  | fcons : String → Value → Fields → Fields
deriving DecidableEq

end

/-- Python `d[k]` / `d.get(k)`: first binding of `k`, if any. -/
def Fields.lookup : Fields → String → Option Value
  | .fnil, _ => none
  | .fcons k v rest, key => if k = key then some v else rest.lookup key

/-- Python truthiness of a dict: `not data` is true exactly on the empty dict. -/
def Fields.isEmpty : Fields → Bool
  | .fnil => true
  | .fcons _ _ _ => false

/-- Exceptions the loop body of `generate_mmdb` can raise: `.get` on a
non-dict raises `AttributeError`; `x in set_of_strings` on an unhashable
value raises `TypeError`. -/
inductive PyErr where
  | attributeError
  | typeError
deriving DecidableEq

/-- The body of the reading loop of `generate_mmdb` (lines 58–64):

```python
if not data or 'country' not in data:
    continue
country_code = data['country'].get('iso_code', '')
if country_code in countries_set:
    networks_to_write.append((str(network), data))
    stats[country_code] += 1
```

Returns `.ok (some code)` when the entry is appended (with the code used
for the stats update), `.ok none` when the entry is skipped, and `.error`
when the Python expression would raise. -/
def keepEval (cs : List String) (data : Fields) : Except PyErr (Option String) :=
  if data.isEmpty then .ok none
  else
    match data.lookup "country" with
    | none => .ok none
    | some (.str _) => .error .attributeError
    | some (.vmap cm) =>
      match (cm.lookup "iso_code").getD (.str "") with
      | .str code => .ok (if cs.contains code then some code else none)
      | .vmap _ => .error .typeError

/-- Whether the loop body retains the record (appends it to
`networks_to_write`). -/
def isKept (cs : List String) (data : Fields) : Bool :=
  match keepEval cs data with
  | .ok (some _) => true
  | _ => false

/-- `data['country'].get('iso_code', '')` as an optional string: `some` of
the resulting country code when it is a string, `none` when the defaulted
value is itself a map. -/
def isoDefault (cm : Fields) : Option String :=
  match (cm.lookup "iso_code").getD (.str "") with
  | .str s => some s
  | .vmap _ => none

/-- The record filter as the spec's words state it: the record's country
attribute's `iso_code`, only when that key is actually present with a
string value.  (Claim-side definition, for comparison with `keepEval`.) -/
def specIsoCode (data : Fields) : Option String :=
  match data.lookup "country" with
  | some (.vmap cm) =>
    match cm.lookup "iso_code" with
    | some (.str s) => some s
    | _ => none
  | _ => none

/-- The spec's `RecordFilter.keep`: true iff the record's country
attribute's `iso_code` is a member of the target set; an unknown or missing
country attribute is "do not keep".  (Claim-side definition.) -/
def specKeep (data : Fields) (cs : List String) : Bool :=
  match specIsoCode data with
  | some c => cs.contains c
  | none => false

/-! ## The reading loop -/

/-- A network as a 128-bit prefix: base address plus prefix length.
Modelled from the spec: the TrieReader yields networks in this normalized
form; the script's `str(network)` / `IPNetwork` round trip is the identity
on it. -/
structure Net where
  base : Nat
  plen : Nat
deriving DecidableEq

/-- The mutable state of the reading loop: `total`, `networks_to_write`
and `stats`. -/
structure LoopState where
  total : Nat
  nets : List (Net × Fields)
  stats : List (String × Nat)
deriving DecidableEq

/-- `stats = {c: 0 for c in countries_set}`. -/
def initStats (cs : List String) : List (String × Nat) :=
  cs.map (fun c => (c, 0))

/-- `stats[country_code] += 1`. -/
def bumpStat (stats : List (String × Nat)) (c : String) : List (String × Nat) :=
  stats.map (fun p => if p.1 = c then (p.1, p.2 + 1) else p)

/-- `stats[k]` as an optional value. -/
def statLookup (stats : List (String × Nat)) (k : String) : Option Nat :=
  (stats.find? (fun p => p.1 == k)).map (·.2)

/-- The keys of a stats table. -/
def statKeys (stats : List (String × Nat)) : List String :=
  stats.map (·.1)

/-- The reading loop of `generate_mmdb` (lines 53–64), one entry at a
time, threading the loop state; a raised exception aborts the loop. -/
def processEntries (cs : List String) :
    List (Net × Fields) → LoopState → Except PyErr LoopState
  | [], st => .ok st
  | (n, d) :: rest, st =>
    match keepEval cs d with
    | .error e => .error e
    | .ok none =>
      processEntries cs rest { st with total := st.total + 1 }
    | .ok (some code) =>
      processEntries cs rest
        { total := st.total + 1
          nets := st.nets ++ [(n, d)]
          stats := bumpStat st.stats code }

deriving instance DecidableEq for Except

/-! ## The output engine (NetworkNormalizer / DataDeduplicator / TrieWriter)

Modelled from the spec: the script delegates these to the `mmdb_writer`
and `netaddr` libraries; §4.3–§4.5 of the specification describe them. -/

/-- An output entry: network plus its attribute record, over the uniform
128-bit address space. -/
structure Entry where
  base : Nat
  plen : Nat
  val : Fields
deriving DecidableEq

/-- The number of addresses the entry covers: `2 ^ (128 - plen)`. -/
def Entry.size (e : Entry) : Nat := 2 ^ (128 - e.plen)

/-- Address `t` lies in the entry's range. -/
def memP (t : Nat) (e : Entry) : Prop := e.base ≤ t ∧ t < e.base + e.size

/-- Two entries cover disjoint address ranges. -/
def EDisj (a b : Entry) : Prop := ∀ t, memP t a → memP t b → False

/-- Modelled from the spec (§4.3): two entries merge when they have equal
prefix lengths, identical attribute values, are address-adjacent, and are
the two halves of a parent node (the left one is aligned to the parent). -/
def canMerge (a b : Entry) : Bool :=
  a.plen == b.plen && a.plen != 0 && a.val == b.val &&
    b.base == a.base + a.size && a.base % (2 * a.size) == 0

/-- The parent network of prefix length one less, carrying the same value. -/
def Entry.parent (a : Entry) : Entry :=
  { base := a.base, plen := a.plen - 1, val := a.val }

/-- Modelled from the spec (§4.3): one reduction pass at depth level `p`,
scanning the sorted entry list left to right and replacing each mergeable
sibling pair at that level by its parent. -/
def mergeAtLevel (p : Nat) : List Entry → List Entry
  | [] => []
  | [a] => [a]
  | a :: b :: rest =>
    if a.plen == p && canMerge a b then
      Entry.parent a :: mergeAtLevel p rest
    else
      a :: mergeAtLevel p (b :: rest)
termination_by l => l.length

/-- Insert an entry into a list sorted by base address. -/
def insertByBase (e : Entry) : List Entry → List Entry
  | [] => [e]
  | a :: rest =>
    if e.base ≤ a.base then e :: a :: rest else a :: insertByBase e rest

/-- Modelled from the spec (§4.3): sort entries by base address. -/
def sortEntries (l : List Entry) : List Entry :=
  l.foldr insertByBase []

/-- The descending sequence of depth levels `[n, n-1, …, 1]`. -/
def levelSeq : Nat → List Nat
  | 0 => []
  | n + 1 => (n + 1) :: levelSeq n

/-- Modelled from the spec (§4.3): sort by base address, then run one
reduction pass per depth level, bottom-up from 128, until the minimal
non-overlapping network set remains. -/
def normalizeNets (l : List Entry) : List Entry :=
  (levelSeq 128).foldl (fun acc p => mergeAtLevel p acc) (sortEntries l)

mutual

/-- Modelled from the spec (§4.4): canonical byte encoding of an attribute
value (type tag followed by payload, maps encoded recursively). -/
def encodeValue : Value → List Nat
  | .str s => 0 :: s.length :: (s.toList.map Char.toNat)
  | .vmap m => 1 :: encodeFields m

/-- Canonical byte encoding of map fields. -/
def encodeFields : Fields → List Nat
  | .fnil => [2]
  | .fcons k v rest =>
    3 :: k.length :: ((k.toList.map Char.toNat) ++ encodeValue v ++ encodeFields rest)

end

/-- Modelled from the spec (§4.4): the dedup table maps each canonical
encoded record to the single data-section offset storing it. -/
structure WriterState where
  table : List (Fields × Nat)
  dataSec : List Nat

/-- Modelled from the spec (§4.4): inserting a record returns the prior
offset when its encoding is already stored, otherwise appends it. -/
def dedupInsert (ws : WriterState) (d : Fields) : WriterState × Nat :=
  match ws.table.find? (fun p => p.1 == d) with
  | some p => (ws, p.2)
  | none =>
    let off := ws.dataSec.length
    ({ table := ws.table ++ [(d, off)], dataSec := ws.dataSec ++ encodeFields d }, off)

/-- A 128-bit base address as 16 big-endian bytes. -/
def encodeNat128 (n : Nat) : List Nat :=
  (List.range 16).map (fun i => n / 2 ^ (8 * (15 - i)) % 256)

/-- Modelled from the spec (§4.4–§4.5): serialize the normalized entries —
fixed-width network records referencing deduplicated data-section offsets,
followed by the data section. -/
def serializeDB (l : List Entry) : List Nat :=
  let norm := normalizeNets l
  let step := fun (acc : WriterState × List Nat) (e : Entry) =>
    let (ws', off) := dedupInsert acc.1 e.val
    (ws', acc.2 ++ encodeNat128 e.base ++ [e.plen, off])
  let (ws, trie) := norm.foldl step (⟨[], []⟩, [])
  trie ++ ws.dataSec

/-- Lookup of an address in the database described by an entry list:
the record of the entry covering the address, `none` (NoData) otherwise. -/
def lookupEntries (l : List Entry) (t : Nat) : Option Fields :=
  (l.find? (fun e => decide (e.base ≤ t) && decide (t < e.base + e.size))).map Entry.val

/-! ## The pipeline `generate_mmdb` -/

/-- File-system operations the pipeline performs, in order. -/
inductive FSOp where
  | readFile : String → FSOp
  | writeFile : String → FSOp
  | renameFile : String → String → FSOp
deriving DecidableEq

/-- Error kinds reported (not raised) by the pipeline. -/
inductive ErrKind where
  | dependencyMissing
deriving DecidableEq

/-- The observable outcome of one `generate_mmdb` run: the returned flag,
a reported error kind if any, the printed per-country stats, the total
entry count, the written database (as its normalized entries and as
serialized bytes), and the file-system operations performed. -/
structure GenRun where
  okFlag : Bool
  err : Option ErrKind
  stats : List (String × Nat)
  total : Nat
  outDB : Option (List Entry)
  outBytes : Option (List Nat)
  fsOps : List FSOp
deriving DecidableEq

/-- A retained `(str(network), data)` pair as an output entry. -/
def toEntry (p : Net × Fields) : Entry :=
  { base := p.1.base, plen := p.1.plen, val := p.2 }

/-- Lexicographic comparison of character lists by code point. -/
def charListLe : List Char → List Char → Bool
  | [], _ => true
  | _ :: _, [] => false
  | a :: as, b :: bs =>
    if a.toNat < b.toNat then true
    else if b.toNat < a.toNat then false
    else charListLe as bs

/-- Lexicographic string comparison (the order `sorted` uses on keys). -/
def strLe (s t : String) : Bool := charListLe s.data t.data

/-- Insert a stats row into a list sorted by key. -/
def insertByKey (e : String × Nat) : List (String × Nat) → List (String × Nat)
  | [] => [e]
  | a :: rest =>
    if strLe e.1 a.1 then e :: a :: rest else a :: insertByKey e rest

/-- The final stats printout `for c in sorted(stats.keys())`. -/
def sortStats (stats : List (String × Nat)) : List (String × Nat) :=
  stats.foldr insertByKey []

/-- `generate_mmdb(source_path, output_path, countries)` (lines 31–93).

`depsOk` models whether the imports succeed; `insertOk` models whether
`IPSet`/`insert_network` raises for a given retained pair (line 78–82:
`try: … except Exception: pass`); `source` is the entry sequence the
`maxminddb` reader yields for `source_path`.  `.error` is an uncaught
Python exception; `.ok` is a normal return carrying the run's observable
outcome. -/
def generateMMDB (depsOk : Bool) (insertOk : Net → Fields → Bool)
    (sourcePath : String) (source : List (Net × Fields))
    (outputPath : String) (countries : List String) : Except PyErr GenRun :=
  if !depsOk then
    .ok { okFlag := false, err := some .dependencyMissing, stats := [], total := 0,
          outDB := none, outBytes := none, fsOps := [] }
  else
    let cs := countries.dedup
    match processEntries cs source { total := 0, nets := [], stats := initStats cs } with
    | .error e => .error e
    | .ok st =>
      let inserted := (st.nets.filter (fun p => insertOk p.1 p.2)).map toEntry
      .ok { okFlag := true, err := none, stats := sortStats st.stats, total := st.total,
            outDB := some (normalizeNets inserted), outBytes := some (serializeDB inserted),
            fsOps := [.readFile sourcePath, .writeFile outputPath] }

/-! ## The entry point `main` -/

/-- The module-level source URL (line 16). -/
def MMDB_SOURCE_URL : String :=
  "https://github.com/xream/geoip/releases/latest/download/ipinfo.country.mmdb"

/-- `os.path.join(tempfile.gettempdir(), 'ipinfo.country.mmdb')` (lines
109–110), with the system temporary directory modelled as `/tmp`. -/
def tempDownloadPath : String := "/tmp/ipinfo.country.mmdb"

/-- Observable events of a `main` run. -/
inductive MainEvent where
  | download : String → String → MainEvent
  | generate : String → MainEvent
deriving DecidableEq

/-- The observable outcome of `main`: its events in order, the source path
actually passed to `generate_mmdb` (if reached), and the exit code. -/
structure MainRun where
  events : List MainEvent
  sourceUsed : Option String
  exitCode : Nat
deriving DecidableEq

/-- Python truthiness of `args.source`. -/
def pyTruthy : Option String → Bool
  | none => false
  | some s => !(s == "")

/-- `main()` (lines 96–118): pick the source file — the supplied path only
when it is truthy and exists, otherwise download the default URL to the
temporary directory — then generate.  `pathExists` models
`os.path.exists`, `downloadOk` the download result, `genOk` the
`generate_mmdb` result. -/
def mainRun (sourceArg : Option String) (pathExists : String → Bool)
    (downloadOk : Bool) (genOk : Bool) : MainRun :=
  if pyTruthy sourceArg && pathExists (sourceArg.getD "") then
    let sp := sourceArg.getD ""
    { events := [.generate sp], sourceUsed := some sp,
      exitCode := if genOk then 0 else 1 }
  else if downloadOk then
    { events := [.download MMDB_SOURCE_URL tempDownloadPath, .generate tempDownloadPath],
      sourceUsed := some tempDownloadPath,
      exitCode := if genOk then 0 else 1 }
  else
    { events := [.download MMDB_SOURCE_URL tempDownloadPath], sourceUsed := none,
      exitCode := 1 }

/-! ## Concrete sample inputs used by witnesses and counterexamples -/

/-- A record whose country map lacks the `iso_code` key. -/
def noIsoRecord : Fields := .fcons "country" (.vmap .fnil) .fnil

/-- Another record whose country map lacks the `iso_code` key. -/
def noIsoRecord2 : Fields := .fcons "country" (.vmap (.fcons "name" (.str "Nowhere") .fnil)) .fnil

/-- A record tagged `{country: {iso_code: "CN"}}`. -/
def cnRecord : Fields := .fcons "country" (.vmap (.fcons "iso_code" (.str "CN") .fnil)) .fnil

/-- A record tagged `{country: {iso_code: "US"}}`. -/
def usRecord : Fields := .fcons "country" (.vmap (.fcons "iso_code" (.str "US") .fnil)) .fnil

/-- A record tagged `{country: {iso_code: "JP"}}`. -/
def jpRecord : Fields := .fcons "country" (.vmap (.fcons "iso_code" (.str "JP") .fnil)) .fnil

/-- An IPv4 address as an IPv4-mapped 128-bit integer. -/
def v4addr (a b c d : Nat) : Nat := 0xffff * 2 ^ 32 + a * 2 ^ 24 + b * 2 ^ 16 + c * 2 ^ 8 + d

/-- `203.0.113.0/25` tagged JP, in the 128-bit space (prefix length 121). -/
def jpLeft : Entry := { base := v4addr 203 0 113 0, plen := 121, val := jpRecord }

/-- `203.0.113.128/25` tagged JP, in the 128-bit space (prefix length 121). -/
def jpRight : Entry := { base := v4addr 203 0 113 128, plen := 121, val := jpRecord }

/-! ## Helper lemmas about the reading loop -/

theorem keepEval_ok_some_iff (cs : List String) (d : Fields) (c : String) :
    keepEval cs d = .ok (some c) ↔
      d.isEmpty = false ∧ ∃ cm, d.lookup "country" = some (.vmap cm) ∧
        isoDefault cm = some c ∧ cs.contains c = true := by
  constructor
  · intro h
    unfold keepEval at h
    split at h
    · simp at h
    · rename_i hEmp
      split at h
      · simp at h
      · simp at h
      · rename_i cm hC
        split at h
        · rename_i code hG
          simp only [Except.ok.injEq] at h
          split at h
          · rename_i hIn
            simp only [Option.some.injEq] at h
            subst h
            have hEmp' : d.isEmpty = false := by
              cases hE2 : d.isEmpty
              · rfl
              · exact absurd hE2 hEmp
            refine ⟨hEmp', cm, hC, ?_, hIn⟩
            unfold isoDefault
            rw [hG]
          · simp at h
        · simp at h
  · rintro ⟨hEmp, cm, hC, hiso, hIn⟩
    have hcode : (cm.lookup "iso_code").getD (.str "") = .str c := by
      unfold isoDefault at hiso
      cases hG : (cm.lookup "iso_code").getD (.str "") <;> rw [hG] at hiso
      · simp only [Option.some.injEq] at hiso; rw [hiso]
      · simp at hiso
    unfold keepEval
    simp [hEmp, hC, hcode, hIn]
    simpa using hIn

theorem isKept_iff (cs : List String) (d : Fields) :
    isKept cs d = true ↔
      d.isEmpty = false ∧ ∃ cm, d.lookup "country" = some (.vmap cm) ∧
        ∃ s, isoDefault cm = some s ∧ cs.contains s = true := by
  unfold isKept
  cases hk : keepEval cs d with
  | error e =>
    simp only [Bool.false_eq_true, false_iff]
    rintro ⟨h1, cm, h2, s, h3, h4⟩
    have := (keepEval_ok_some_iff cs d s).2 ⟨h1, cm, h2, h3, h4⟩
    rw [hk] at this; exact absurd this (by simp)
  | ok o =>
    cases o with
    | none =>
      simp only [Bool.false_eq_true, false_iff]
      rintro ⟨h1, cm, h2, s, h3, h4⟩
      have := (keepEval_ok_some_iff cs d s).2 ⟨h1, cm, h2, h3, h4⟩
      rw [hk] at this; exact absurd this (by simp)
    | some c =>
      simp only [true_iff]
      obtain ⟨h1, cm, h2, h3, h4⟩ := (keepEval_ok_some_iff cs d c).1 hk
      exact ⟨h1, cm, h2, c, h3, h4⟩

theorem processEntries_ok_nets (cs : List String) :
    ∀ (l : List (Net × Fields)) (st st' : LoopState),
      processEntries cs l st = .ok st' →
      st'.nets = st.nets ++ l.filter (fun e => isKept cs e.2) := by
  intro l
  induction l with
  | nil =>
    intro st st' h
    simp only [processEntries, Except.ok.injEq] at h
    simp [← h]
  | cons hd tl ih =>
    intro st st' h
    obtain ⟨n, d⟩ := hd
    rw [processEntries] at h
    cases hk : keepEval cs d with
    | error e => rw [hk] at h; exact absurd h (by simp)
    | ok o =>
      cases o with
      | none =>
        rw [hk] at h
        have hkept : isKept cs d = false := by unfold isKept; rw [hk]
        rw [ih _ _ h]
        simp [List.filter_cons, hkept]
      | some c =>
        rw [hk] at h
        have hkept : isKept cs d = true := by unfold isKept; rw [hk]
        rw [ih _ _ h]
        simp [List.filter_cons, hkept]

/-! ## C1 — retention predicate of the filter -/

/-- C1 counterexample: a record whose country map lacks `iso_code` has no
iso-code attribute at all (`specIsoCode` is `none`, so the spec's filter
rejects it), yet the code retains it when the empty string is a member of
the target set. -/
theorem keep_empty_iso_counterexample :
    isKept [""] noIsoRecord = true ∧ specKeep noIsoRecord [""] = false := by
  decide

/-- C1 (amended): an entry is retained into `networks_to_write` iff its
record is a non-empty map having a `country` attribute whose `iso_code` —
taken as the empty string when the key is missing — is a member of the
target set. -/
theorem retained_iff_defaulted_iso_in_targets (cs : List String)
    (source : List (Net × Fields)) (st : LoopState)
    (h : processEntries cs source { total := 0, nets := [], stats := initStats cs } = .ok st) :
    st.nets = source.filter (fun e => isKept cs e.2) ∧
      ∀ d, isKept cs d = true ↔
        (d.isEmpty = false ∧ ∃ cm, d.lookup "country" = some (.vmap cm) ∧
          ∃ s, isoDefault cm = some s ∧ cs.contains s = true) := by
  constructor
  · simpa using processEntries_ok_nets cs source _ st h
  · intro d
    exact isKept_iff cs d

/-- Witness for C1's amended theorem at a concrete run. -/
theorem retained_iff_defaulted_iso_in_targets_witness :
    (processEntries ["CN"] [({ base := 1, plen := 128 }, cnRecord), ({ base := 2, plen := 128 }, usRecord)]
        { total := 0, nets := [], stats := initStats ["CN"] } =
      .ok { total := 2, nets := [({ base := 1, plen := 128 }, cnRecord)], stats := [("CN", 1)] }) ∧
    ([({ base := 1, plen := 128 }, cnRecord)] : List (Net × Fields)) =
        ([({ base := 1, plen := 128 }, cnRecord), ({ base := 2, plen := 128 }, usRecord)].filter
          (fun e => isKept ["CN"] e.2)) ∧
      ∀ d, isKept ["CN"] d = true ↔
        (d.isEmpty = false ∧ ∃ cm, d.lookup "country" = some (.vmap cm) ∧
          ∃ s, isoDefault cm = some s ∧ List.contains ["CN"] s = true) :=
  ⟨by decide,
   retained_iff_defaulted_iso_in_targets ["CN"]
     [({ base := 1, plen := 128 }, cnRecord), ({ base := 2, plen := 128 }, usRecord)]
     { total := 2, nets := [({ base := 1, plen := 128 }, cnRecord)], stats := [("CN", 1)] }
     (by decide)⟩

/-! ## C10 — missing `iso_code` defaults to the empty string -/

/-- C10: when the record's country map lacks the `iso_code` key, the code
defaults it to the empty string, so the entry is retained iff the empty
string is itself a member of the target set. -/
theorem missing_iso_code_defaults_to_empty (cs : List String) (d cm : Fields)
    (h1 : d.isEmpty = false) (h2 : d.lookup "country" = some (.vmap cm))
    (h3 : cm.lookup "iso_code" = none) :
    isKept cs d = true ↔ cs.contains "" = true := by
  rw [isKept_iff]
  constructor
  · rintro ⟨-, cm', hcm', s, hiso, hIn⟩
    rw [h2] at hcm'
    obtain rfl : cm = cm' := by simpa using hcm'
    unfold isoDefault at hiso
    rw [h3] at hiso
    simp only [Option.getD_none, Option.some.injEq] at hiso
    rw [← hiso] at hIn
    exact hIn
  · intro hIn
    refine ⟨h1, cm, h2, "", ?_, hIn⟩
    unfold isoDefault
    rw [h3]
    rfl

/-- Witness for C10 at a concrete record and target set. -/
theorem missing_iso_code_defaults_to_empty_witness :
    (Fields.isEmpty noIsoRecord2 = false ∧
      Fields.lookup noIsoRecord2 "country" = some (.vmap (.fcons "name" (.str "Nowhere") .fnil)) ∧
      Fields.lookup (.fcons "name" (.str "Nowhere") .fnil) "iso_code" = none) ∧
    (isKept ["", "CN"] noIsoRecord2 = true ↔ List.contains ["", "CN"] "" = true) :=
  ⟨⟨by decide, by decide, by decide⟩,
   missing_iso_code_defaults_to_empty ["", "CN"] noIsoRecord2
     (.fcons "name" (.str "Nowhere") .fnil) (by decide) (by decide) (by decide)⟩

/-! ## C8 — missing dependencies fail before the pipeline starts -/

/-- C8: with a required dependency unavailable, `generate_mmdb` returns a
dependency-missing result (it does not raise), performs no file-system
operation — in particular the source is never read — and reports no stats. -/
theorem missing_dependency_fails_before_read (insertOk : Net → Fields → Bool)
    (sourcePath : String) (source : List (Net × Fields))
    (outputPath : String) (countries : List String) :
    generateMMDB false insertOk sourcePath source outputPath countries =
      .ok { okFlag := false, err := some .dependencyMissing, stats := [], total := 0,
            outDB := none, outBytes := none, fsOps := [] } := rfl

/-! ## C9 — a nonexistent `--source` path silently falls back to download -/

/-- C9: when a `--source` path is supplied but no file exists there, `main`
behaves exactly as if no source had been supplied: it downloads the default
URL into the temporary directory and reports nothing about the supplied
path. -/
theorem nonexistent_source_falls_back_to_download (p : String)
    (pathExists : String → Bool) (downloadOk genOk : Bool)
    (h : pathExists p = false) :
    mainRun (some p) pathExists downloadOk genOk = mainRun none pathExists downloadOk genOk ∧
      (mainRun (some p) pathExists downloadOk genOk).events.head? =
        some (.download MMDB_SOURCE_URL tempDownloadPath) := by
  unfold mainRun pyTruthy
  simp only [Option.getD_some, h, Bool.and_false, Bool.false_and, Bool.false_eq_true,
    if_false]
  cases downloadOk <;> simp

/-- Witness for C9 at a concrete supplied path that does not exist. -/
theorem nonexistent_source_falls_back_to_download_witness :
    ((fun _ => false : String → Bool) "missing.mmdb" = false) ∧
      (mainRun (some "missing.mmdb") (fun _ => false) true true =
          mainRun none (fun _ => false) true true ∧
        (mainRun (some "missing.mmdb") (fun _ => false) true true).events.head? =
          some (.download MMDB_SOURCE_URL tempDownloadPath)) :=
  ⟨rfl, nonexistent_source_falls_back_to_download "missing.mmdb" (fun _ => false) true true rfl⟩

/-! ## Helper lemmas about the statistics table -/

theorem statLookup_cons_self (k0 : String) (v0 : Nat) (tl : List (String × Nat)) :
    statLookup ((k0, v0) :: tl) k0 = some v0 := by
  unfold statLookup
  rw [List.find?_cons_of_pos _ (by simp)]
  rfl

theorem statLookup_cons_ne (k0 k : String) (v0 : Nat) (tl : List (String × Nat))
    (h : k0 ≠ k) :
    statLookup ((k0, v0) :: tl) k = statLookup tl k := by
  unfold statLookup
  rw [List.find?_cons_of_neg _ (by simp [h])]

theorem bumpStat_statLookup (s : List (String × Nat)) (c k : String) :
    statLookup (bumpStat s c) k =
      (statLookup s k).map (fun v => if k = c then v + 1 else v) := by
  induction s with
  | nil => rfl
  | cons hd tl ih =>
    obtain ⟨k0, v0⟩ := hd
    have hbump : bumpStat ((k0, v0) :: tl) c =
        (if k0 = c then (k0, v0 + 1) else (k0, v0)) :: bumpStat tl c := by
      simp [bumpStat]
    rw [hbump]
    by_cases hk : k0 = k
    · subst hk
      by_cases hc : k0 = c
      · subst hc
        rw [if_pos rfl, statLookup_cons_self, statLookup_cons_self]
        simp
      · rw [if_neg hc, statLookup_cons_self, statLookup_cons_self]
        simp [hc]
    · have h1 : statLookup ((if k0 = c then (k0, v0 + 1) else (k0, v0)) :: bumpStat tl c) k =
          statLookup (bumpStat tl c) k := by
        by_cases hc : k0 = c
        · rw [if_pos hc]; exact statLookup_cons_ne _ _ _ _ hk
        · rw [if_neg hc]; exact statLookup_cons_ne _ _ _ _ hk
      rw [h1, statLookup_cons_ne _ _ _ _ hk, ih]

theorem processEntries_ok_statLookup (cs : List String) :
    ∀ (l : List (Net × Fields)) (st st' : LoopState) (k : String),
      processEntries cs l st = .ok st' →
      statLookup st'.stats k =
        (statLookup st.stats k).map
          (· + l.countP (fun e => decide (keepEval cs e.2 = .ok (some k)))) := by
  intro l
  induction l with
  | nil =>
    intro st st' k h
    simp only [processEntries, Except.ok.injEq] at h
    subst h
    cases statLookup st.stats k <;> simp
  | cons hd tl ih =>
    intro st st' k h
    obtain ⟨n, d⟩ := hd
    rw [processEntries] at h
    cases hk : keepEval cs d with
    | error e => rw [hk] at h; exact absurd h (by simp)
    | ok o =>
      cases o with
      | none =>
        rw [hk] at h
        have h2 := ih _ _ k h
        rw [h2]
        have hp : decide (keepEval cs d = .ok (some k)) = false := by simp [hk]
        simp [List.countP_cons, hp]
      | some c =>
        rw [hk] at h
        have h2 := ih _ _ k h
        rw [h2]
        simp only [bumpStat_statLookup]
        by_cases hkc : k = c
        · subst hkc
          have hp : decide (keepEval cs d = .ok (some k)) = true := by simp [hk]
          cases statLookup st.stats k
          · simp [List.countP_cons, hp]
          · simp [List.countP_cons, hp]
            omega
        · have hp : decide (keepEval cs d = .ok (some k)) = false := by
            simp only [decide_eq_false_iff_not]
            intro hcon
            rw [hk] at hcon
            simp only [Except.ok.injEq, Option.some.injEq] at hcon
            exact hkc hcon.symm
          cases statLookup st.stats k <;> simp [List.countP_cons, hp, hkc]

theorem initStats_statLookup_mem (cs : List String) (k : String) (h : k ∈ cs) :
    statLookup (initStats cs) k = some 0 := by
  induction cs with
  | nil => simp at h
  | cons c tl ih =>
    have hcons : initStats (c :: tl) = (c, 0) :: initStats tl := rfl
    rw [hcons]
    by_cases hk : c = k
    · subst hk
      exact statLookup_cons_self c 0 (initStats tl)
    · have hmem : k ∈ tl := by
        rcases List.mem_cons.1 h with h1 | h1
        · exact absurd h1.symm hk
        · exact h1
      rw [statLookup_cons_ne _ _ _ _ hk]
      exact ih hmem

theorem statKeys_bumpStat (s : List (String × Nat)) (c : String) :
    statKeys (bumpStat s c) = statKeys s := by
  induction s with
  | nil => rfl
  | cons hd tl ih =>
    obtain ⟨k0, v0⟩ := hd
    by_cases h : k0 = c <;> simp_all [bumpStat, statKeys]

theorem processEntries_ok_statKeys (cs : List String) :
    ∀ (l : List (Net × Fields)) (st st' : LoopState),
      processEntries cs l st = .ok st' → statKeys st'.stats = statKeys st.stats := by
  intro l
  induction l with
  | nil =>
    intro st st' h
    simp only [processEntries, Except.ok.injEq] at h
    rw [← h]
  | cons hd tl ih =>
    intro st st' h
    obtain ⟨n, d⟩ := hd
    rw [processEntries] at h
    cases hk : keepEval cs d with
    | error e => rw [hk] at h; exact absurd h (by simp)
    | ok o =>
      cases o with
      | none =>
        rw [hk] at h
        have h2 := ih _ _ h
        exact h2
      | some c =>
        rw [hk] at h
        have h2 := ih _ _ h
        rw [h2]
        exact statKeys_bumpStat st.stats c

theorem statKeys_initStats (cs : List String) : statKeys (initStats cs) = cs := by
  induction cs with
  | nil => rfl
  | cons c tl ih => simp_all [initStats, statKeys]

theorem statLookup_eq_some_iff (s : List (String × Nat)) (k : String) (v : Nat)
    (hnd : (statKeys s).Nodup) :
    statLookup s k = some v ↔ (k, v) ∈ s := by
  induction s with
  | nil => simp [statLookup]
  | cons hd tl ih =>
    obtain ⟨k0, v0⟩ := hd
    simp only [statKeys, List.map_cons, List.nodup_cons] at hnd
    by_cases hk : k0 = k
    · subst hk
      rw [statLookup_cons_self]
      constructor
      · intro h
        have hv : v0 = v := by simpa using h
        subst hv
        exact List.mem_cons_self _ _
      · intro hmem
        rcases List.mem_cons.1 hmem with h1 | h1
        · have hv : v = v0 := by
            have := congrArg Prod.snd h1
            simpa using this
          rw [hv]
        · exact absurd (List.mem_map.2 ⟨(k0, v), h1, rfl⟩) hnd.1
    · rw [statLookup_cons_ne _ _ _ _ hk, ih hnd.2]
      constructor
      · intro hmem
        exact List.mem_cons.2 (Or.inr hmem)
      · intro hmem
        rcases List.mem_cons.1 hmem with h1 | h1
        · have := congrArg Prod.fst h1
          simp at this
          exact absurd this.symm hk
        · exact h1

theorem statLookup_eq_none_iff (s : List (String × Nat)) (k : String) :
    statLookup s k = none ↔ k ∉ statKeys s := by
  unfold statLookup statKeys
  rw [Option.map_eq_none', List.find?_eq_none]
  constructor
  · intro h hmem
    obtain ⟨x, hx, hxk⟩ := List.mem_map.1 hmem
    exact h x hx (by simp [hxk])
  · intro h x hx hbeq
    exact h (List.mem_map.2 ⟨x, hx, by simpa using hbeq⟩)

theorem statLookup_perm (s s' : List (String × Nat)) (hp : s.Perm s')
    (hnd : (statKeys s).Nodup) (k : String) :
    statLookup s k = statLookup s' k := by
  have hpk : (statKeys s).Perm (statKeys s') := hp.map _
  have hnd' : (statKeys s').Nodup := hpk.nodup_iff.1 hnd
  cases hv : statLookup s k with
  | some v =>
    have hm : (k, v) ∈ s := (statLookup_eq_some_iff s k v hnd).1 hv
    exact ((statLookup_eq_some_iff s' k v hnd').2 (hp.mem_iff.1 hm)).symm
  | none =>
    have h1 := (statLookup_eq_none_iff s k).1 hv
    have h2 : k ∉ statKeys s' := fun hc => h1 (hpk.mem_iff.2 hc)
    exact ((statLookup_eq_none_iff s' k).2 h2).symm

theorem insertByKey_perm (e : String × Nat) (l : List (String × Nat)) :
    (insertByKey e l).Perm (e :: l) := by
  induction l with
  | nil => exact List.Perm.refl _
  | cons a rest ih =>
    unfold insertByKey
    by_cases h : strLe e.1 a.1 = true
    · rw [if_pos h]
    · rw [if_neg h]
      exact ((ih.cons a).trans (List.Perm.swap e a rest))

theorem sortStats_perm (s : List (String × Nat)) : (sortStats s).Perm s := by
  induction s with
  | nil => exact List.Perm.refl _
  | cons a rest ih =>
    unfold sortStats at ih ⊢
    exact (insertByKey_perm a _).trans (ih.cons a)

/-! ## Helper lemmas about the pipeline -/

theorem mergeAtLevel_nil (p : Nat) : mergeAtLevel p [] = [] := by
  simp [mergeAtLevel]

theorem foldl_mergeAtLevel_nil (L : List Nat) :
    L.foldl (fun acc p => mergeAtLevel p acc) [] = [] := by
  induction L with
  | nil => rfl
  | cons q L ih =>
    rw [List.foldl_cons, mergeAtLevel_nil]
    exact ih

theorem normalizeNets_nil : normalizeNets [] = [] := by
  unfold normalizeNets
  exact foldl_mergeAtLevel_nil _

theorem serializeDB_nil : serializeDB [] = [] := by
  unfold serializeDB
  rw [normalizeNets_nil]
  rfl

theorem generateMMDB_true_eq (insertOk : Net → Fields → Bool)
    (sourcePath outputPath : String) (source : List (Net × Fields))
    (countries : List String) :
    generateMMDB true insertOk sourcePath source outputPath countries =
      match processEntries countries.dedup source
          { total := 0, nets := [], stats := initStats countries.dedup } with
      | .error e => .error e
      | .ok st =>
        .ok { okFlag := true, err := none, stats := sortStats st.stats, total := st.total,
              outDB := some (normalizeNets ((st.nets.filter (fun p => insertOk p.1 p.2)).map toEntry)),
              outBytes := some (serializeDB ((st.nets.filter (fun p => insertOk p.1 p.2)).map toEntry)),
              fsOps := [.readFile sourcePath, .writeFile outputPath] } := rfl

theorem processEntries_all_skipped (cs : List String) :
    ∀ (l : List (Net × Fields)) (st : LoopState),
      (∀ e ∈ l, keepEval cs e.2 = .ok none) →
      processEntries cs l st = .ok { st with total := st.total + l.length } := by
  intro l
  induction l with
  | nil => intro st h; simp [processEntries]
  | cons hd tl ih =>
    intro st h
    obtain ⟨n, d⟩ := hd
    have hhd : keepEval cs d = .ok none := h (n, d) (List.mem_cons_self _ _)
    rw [processEntries, hhd]
    have htl : ∀ e ∈ tl, keepEval cs e.2 = .ok none := fun e he => h e (List.mem_cons_of_mem _ he)
    rw [ih _ htl]
    simp only [Except.ok.injEq, List.length_cons]
    congr 1
    omega

/-! ## C7 — per-key counts equal the number of retained entries -/

/-- C7: every requested target key gets a reported count, and that count
equals the number of source entries retained with exactly that country
code (for keys with zero matches, the reported count is zero). -/
theorem per_key_counts_match_retained (insertOk : Net → Fields → Bool)
    (sourcePath outputPath : String) (source : List (Net × Fields))
    (countries : List String) (r : GenRun)
    (h : generateMMDB true insertOk sourcePath source outputPath countries = .ok r) :
    ∀ k ∈ countries, statLookup r.stats k =
      some (source.countP (fun e => decide (keepEval countries.dedup e.2 = .ok (some k)))) := by
  intro k hk
  rw [generateMMDB_true_eq] at h
  cases hpe : processEntries countries.dedup source
      { total := 0, nets := [], stats := initStats countries.dedup } with
  | error e => rw [hpe] at h; exact absurd h (by simp)
  | ok st =>
    rw [hpe] at h
    simp only [Except.ok.injEq] at h
    subst h
    show statLookup (sortStats st.stats) k = _
    have hkeys : statKeys st.stats = countries.dedup := by
      rw [processEntries_ok_statKeys _ _ _ _ hpe]
      exact statKeys_initStats _
    have hnd : (statKeys st.stats).Nodup := by
      rw [hkeys]; exact List.nodup_dedup _
    have hsorted := statLookup_perm st.stats (sortStats st.stats)
      (sortStats_perm st.stats).symm hnd k
    rw [← hsorted]
    have h3 := processEntries_ok_statLookup countries.dedup source _ _ k hpe
    rw [h3]
    have h4 : statLookup (initStats countries.dedup) k = some 0 :=
      initStats_statLookup_mem _ _ (List.mem_dedup.2 hk)
    rw [show statLookup ({ total := 0, nets := [], stats := initStats countries.dedup } :
        LoopState).stats k = statLookup (initStats countries.dedup) k from rfl, h4]
    simp

/-- Witness for C7 at a concrete run with one CN entry and keys CN, SG. -/
theorem per_key_counts_match_retained_witness :
    ∃ r, generateMMDB true (fun _ _ => true) "src.mmdb"
        [({ base := 5, plen := 128 }, cnRecord)] "out.mmdb" ["CN", "SG"] = .ok r ∧
      ∀ k ∈ (["CN", "SG"] : List String), statLookup r.stats k =
        some (List.countP
          (fun (e : Net × Fields) => decide (keepEval (List.dedup ["CN", "SG"]) e.2 = .ok (some k)))
          ([({ base := 5, plen := 128 }, cnRecord)] : List (Net × Fields))) := by
  have hpe : processEntries (List.dedup ["CN", "SG"])
      [({ base := 5, plen := 128 }, cnRecord)]
      { total := 0, nets := [], stats := initStats (List.dedup ["CN", "SG"]) } =
      .ok { total := 1, nets := [({ base := 5, plen := 128 }, cnRecord)],
            stats := [("CN", 1), ("SG", 0)] } := by decide
  have hrun : generateMMDB true (fun _ _ => true) "src.mmdb"
      [({ base := 5, plen := 128 }, cnRecord)] "out.mmdb" ["CN", "SG"] =
      .ok { okFlag := true, err := none, stats := [("CN", 1), ("SG", 0)], total := 1,
            outDB := some (normalizeNets [{ base := 5, plen := 128, val := cnRecord }]),
            outBytes := some (serializeDB [{ base := 5, plen := 128, val := cnRecord }]),
            fsOps := [.readFile "src.mmdb", .writeFile "out.mmdb"] } := by
    rw [generateMMDB_true_eq, hpe]
    rfl
  exact ⟨_, hrun, per_key_counts_match_retained _ _ _ _ _ _ hrun⟩

/-! ## C4 — a key with zero matches still succeeds and writes an empty db -/

/-- C4: requesting a single target key that matches no source entry still
succeeds, reports the zero count for that key, and still writes the output
database, in which every address resolves to NoData. -/
theorem zero_match_key_still_writes_empty_db (insertOk : Net → Fields → Bool)
    (sourcePath outputPath k : String) (source : List (Net × Fields))
    (hnone : ∀ e ∈ source, keepEval [k] e.2 = .ok none) :
    ∃ r, generateMMDB true insertOk sourcePath source outputPath [k] = .ok r ∧
      r.okFlag = true ∧ r.err = none ∧ statLookup r.stats k = some 0 ∧
      FSOp.writeFile outputPath ∈ r.fsOps ∧ r.outDB = some [] ∧
      ∀ t, lookupEntries [] t = none := by
  have hded : List.dedup [k] = [k] := by simp
  have hpe := processEntries_all_skipped (List.dedup [k]) source
    { total := 0, nets := [], stats := initStats (List.dedup [k]) }
    (fun e he => by rw [hded]; exact hnone e he)
  rw [generateMMDB_true_eq, hpe]
  refine ⟨_, rfl, rfl, rfl, ?_, ?_, ?_, ?_⟩
  · show statLookup (sortStats (initStats (List.dedup [k]))) k = some 0
    rw [hded]
    exact statLookup_cons_self k 0 []
  · show FSOp.writeFile outputPath ∈ [FSOp.readFile sourcePath, FSOp.writeFile outputPath]
    simp
  · show some (normalizeNets _) = some []
    rw [show (([] : List (Net × Fields)).filter (fun p => insertOk p.1 p.2)).map toEntry =
      [] from rfl, normalizeNets_nil]
  · intro t
    rfl

/-- Witness for C4: a source with one CN entry, requesting SG. -/
theorem zero_match_key_still_writes_empty_db_witness :
    (∀ e ∈ ([({ base := 7, plen := 128 }, cnRecord)] : List (Net × Fields)),
        keepEval ["SG"] e.2 = .ok none) ∧
      ∃ r, generateMMDB true (fun _ _ => true) "src.mmdb"
          [({ base := 7, plen := 128 }, cnRecord)] "out.mmdb" ["SG"] = .ok r ∧
        r.okFlag = true ∧ r.err = none ∧ statLookup r.stats "SG" = some 0 ∧
        FSOp.writeFile "out.mmdb" ∈ r.fsOps ∧ r.outDB = some [] ∧
        ∀ t, lookupEntries [] t = none :=
  ⟨by decide,
   zero_match_key_still_writes_empty_db (fun _ _ => true) "src.mmdb" "out.mmdb" "SG"
     [({ base := 7, plen := 128 }, cnRecord)] (by decide)⟩

/-! ## C5 — insertion errors are swallowed, not propagated -/

/-- C5 counterexample: with every insertion raising, the run still returns
success, still reports the retained count 1, and silently writes an empty
database — the insertion error did not propagate. -/
theorem insert_failure_swallowed_counterexample :
    ∃ r, generateMMDB true (fun _ _ => false) "src.mmdb"
        [({ base := 9, plen := 128 }, cnRecord)] "out.mmdb" ["CN"] = .ok r ∧
      r.okFlag = true ∧ r.err = none ∧ statLookup r.stats "CN" = some 1 ∧
      r.outDB = some [] ∧ r.outBytes = some [] := by
  refine ⟨_, rfl, rfl, rfl, by decide, ?_, ?_⟩
  · show some (normalizeNets []) = some []
    rw [normalizeNets_nil]
  · show some (serializeDB []) = some []
    rw [serializeDB_nil]

/-- C5 (amended): exceptions raised while inserting an entry into the
output writer are caught and ignored — the run still succeeds and the
failing entries are silently omitted from the written database. -/
theorem insert_failures_ignored_entry_dropped (insertOk : Net → Fields → Bool)
    (sourcePath outputPath : String) (source : List (Net × Fields))
    (countries : List String) (st : LoopState)
    (h : processEntries countries.dedup source
      { total := 0, nets := [], stats := initStats countries.dedup } = .ok st) :
    ∃ r, generateMMDB true insertOk sourcePath source outputPath countries = .ok r ∧
      r.okFlag = true ∧ r.err = none ∧
      r.outDB = some (normalizeNets
        ((st.nets.filter (fun p => insertOk p.1 p.2)).map toEntry)) := by
  rw [generateMMDB_true_eq, h]
  exact ⟨_, rfl, rfl, rfl, rfl⟩

/-- Witness for C5's amended theorem: one retained entry, failing insert. -/
theorem insert_failures_ignored_entry_dropped_witness :
    (processEntries (List.dedup ["CN"]) [({ base := 9, plen := 128 }, cnRecord)]
        { total := 0, nets := [], stats := initStats (List.dedup ["CN"]) } =
      .ok { total := 1, nets := [({ base := 9, plen := 128 }, cnRecord)],
            stats := [("CN", 1)] }) ∧
    ∃ r, generateMMDB true (fun _ _ => false) "src.mmdb"
        [({ base := 9, plen := 128 }, cnRecord)] "out.mmdb" ["CN"] = .ok r ∧
      r.okFlag = true ∧ r.err = none ∧
      r.outDB = some (normalizeNets
        ((List.filter (fun _ => false)
          [({ base := 9, plen := 128 }, cnRecord)]).map toEntry)) :=
  ⟨by decide,
   insert_failures_ignored_entry_dropped (fun _ _ => false) "src.mmdb" "out.mmdb"
     [({ base := 9, plen := 128 }, cnRecord)] ["CN"]
     { total := 1, nets := [({ base := 9, plen := 128 }, cnRecord)], stats := [("CN", 1)] }
     (by decide)⟩

/-! ## C6 — the output is written directly, with no temporary or rename -/

/-- C6 counterexample: a concrete successful run writes the output file
directly at the destination path and performs no rename at all, so the
output is not written to a temporary path and atomically renamed. -/
theorem direct_write_no_rename_counterexample :
    ∃ r, generateMMDB true (fun _ _ => true) "src.mmdb" [] "out.mmdb" ["CN"] = .ok r ∧
      r.fsOps = [.readFile "src.mmdb", .writeFile "out.mmdb"] ∧
      ∀ a b, FSOp.renameFile a b ∉ r.fsOps := by
  refine ⟨_, rfl, rfl, ?_⟩
  intro a b hmem
  have : FSOp.renameFile a b ∈
      [FSOp.readFile "src.mmdb", FSOp.writeFile "out.mmdb"] := hmem
  simp at this

/-- C6 (amended): the pipeline writes the output in one pass directly to
the destination path; it uses no temporary path and performs no rename. -/
theorem output_written_directly_to_destination (insertOk : Net → Fields → Bool)
    (sourcePath outputPath : String) (source : List (Net × Fields))
    (countries : List String) (st : LoopState)
    (h : processEntries countries.dedup source
      { total := 0, nets := [], stats := initStats countries.dedup } = .ok st) :
    ∃ r, generateMMDB true insertOk sourcePath source outputPath countries = .ok r ∧
      r.fsOps = [.readFile sourcePath, .writeFile outputPath] ∧
      ∀ a b, FSOp.renameFile a b ∉ r.fsOps := by
  rw [generateMMDB_true_eq, h]
  refine ⟨_, rfl, rfl, ?_⟩
  intro a b hmem
  have : FSOp.renameFile a b ∈
      [FSOp.readFile sourcePath, FSOp.writeFile outputPath] := hmem
  simp at this

/-- Witness for C6's amended theorem at a concrete run. -/
theorem output_written_directly_to_destination_witness :
    (processEntries (List.dedup ["CN"]) []
        { total := 0, nets := [], stats := initStats (List.dedup ["CN"]) } =
      .ok { total := 0, nets := [], stats := [("CN", 0)] }) ∧
    ∃ r, generateMMDB true (fun _ _ => true) "src.mmdb" [] "out.mmdb" ["CN"] = .ok r ∧
      r.fsOps = [.readFile "src.mmdb", .writeFile "out.mmdb"] ∧
      ∀ a b, FSOp.renameFile a b ∉ r.fsOps :=
  ⟨by decide,
   output_written_directly_to_destination (fun _ _ => true) "src.mmdb" "out.mmdb" [] ["CN"]
     { total := 0, nets := [], stats := [("CN", 0)] } (by decide)⟩

/-! ## C2 — the output byte layout is a function of the retained set -/

theorem insertByBase_perm (e : Entry) (l : List Entry) :
    (insertByBase e l).Perm (e :: l) := by
  induction l with
  | nil => exact List.Perm.refl _
  | cons a rest ih =>
    unfold insertByBase
    by_cases h : e.base ≤ a.base
    · rw [if_pos h]
    · rw [if_neg h]
      exact ((ih.cons a).trans (List.Perm.swap e a rest))

theorem sortEntries_perm (l : List Entry) : (sortEntries l).Perm l := by
  induction l with
  | nil => exact List.Perm.refl _
  | cons a rest ih =>
    unfold sortEntries at ih ⊢
    exact (insertByBase_perm a _).trans (ih.cons a)

theorem insertByBase_sorted (e : Entry) (l : List Entry)
    (h : l.Pairwise (fun a b => a.base ≤ b.base)) :
    (insertByBase e l).Pairwise (fun a b => a.base ≤ b.base) := by
  induction l with
  | nil => simp [insertByBase]
  | cons a rest ih =>
    rw [List.pairwise_cons] at h
    unfold insertByBase
    by_cases hle : e.base ≤ a.base
    · rw [if_pos hle]
      rw [List.pairwise_cons]
      constructor
      · intro x hx
        rcases List.mem_cons.1 hx with hx | hx
        · rw [hx]; exact hle
        · exact Nat.le_trans hle (h.1 x hx)
      · rw [List.pairwise_cons]
        exact h
    · rw [if_neg hle]
      rw [List.pairwise_cons]
      constructor
      · intro x hx
        rcases List.mem_cons.1 ((insertByBase_perm e rest).mem_iff.1 hx) with hx | hx
        · rw [hx]; omega
        · exact h.1 x hx
      · exact ih h.2

theorem sortEntries_sorted (l : List Entry) :
    (sortEntries l).Pairwise (fun a b => a.base ≤ b.base) := by
  induction l with
  | nil => exact List.Pairwise.nil
  | cons a rest ih =>
    unfold sortEntries at ih ⊢
    exact insertByBase_sorted a _ ih

theorem sortEntries_sorted_lt (l : List Entry) (hnd : (l.map Entry.base).Nodup) :
    (sortEntries l).Pairwise (fun a b => a.base < b.base) := by
  have hle := sortEntries_sorted l
  have hperm := sortEntries_perm l
  have hnd' : ((sortEntries l).map Entry.base).Nodup := ((hperm.map _).nodup_iff).2 hnd
  have hne : (sortEntries l).Pairwise (fun a b => a.base ≠ b.base) :=
    List.pairwise_map.1 hnd'
  exact (hle.and hne).imp (fun h => Nat.lt_of_le_of_ne h.1 h.2)

theorem sortEntries_eq_of_perm (l1 l2 : List Entry) (hperm : l1.Perm l2)
    (hnd : (l1.map Entry.base).Nodup) :
    sortEntries l1 = sortEntries l2 := by
  have h1 := sortEntries_sorted_lt l1 hnd
  have hnd2 : (l2.map Entry.base).Nodup := ((hperm.map _).nodup_iff).1 hnd
  have h2 := sortEntries_sorted_lt l2 hnd2
  have hp : (sortEntries l1).Perm (sortEntries l2) :=
    (sortEntries_perm l1).trans (hperm.trans (sortEntries_perm l2).symm)
  haveI : IsAntisymm Entry (fun a b => a.base < b.base) :=
    ⟨fun a b ha hb => absurd hb (Nat.lt_asymm ha)⟩
  exact List.eq_of_perm_of_sorted hp h1 h2

/-- C2: the serialized output is a deterministic function of the set of
retained (network, value) pairs — two retained lists that are permutations
of each other (with the pairwise-distinct base addresses the source trie
guarantees) serialize to byte-identical output; in particular compacting
the same input twice yields byte-identical output. -/
theorem output_bytes_function_of_retained_set (l1 l2 : List Entry)
    (hperm : l1.Perm l2) (hnd : (l1.map Entry.base).Nodup) :
    serializeDB l1 = serializeDB l2 := by
  have hsort := sortEntries_eq_of_perm l1 l2 hperm hnd
  unfold serializeDB normalizeNets
  rw [hsort]

/-- Witness for C2: the two JP half networks, inserted in either order,
serialize identically. -/
theorem output_bytes_function_of_retained_set_witness :
    (([jpLeft, jpRight] : List Entry).Perm [jpRight, jpLeft] ∧
        (([jpLeft, jpRight].map Entry.base).Nodup)) ∧
      serializeDB [jpLeft, jpRight] = serializeDB [jpRight, jpLeft] :=
  ⟨⟨List.Perm.swap jpRight jpLeft [], by decide⟩,
   output_bytes_function_of_retained_set _ _ (List.Perm.swap jpRight jpLeft []) (by decide)⟩

/-! ## C3 — adjacent sibling entries with equal values are merged -/

theorem size_pos (e : Entry) : 0 < e.size :=
  Nat.pos_pow_of_pos _ (by omega)

theorem canMerge_spec (a b : Entry) (h : canMerge a b = true) :
    a.plen = b.plen ∧ a.plen ≠ 0 ∧ a.val = b.val ∧ b.base = a.base + a.size ∧
      a.base % (2 * a.size) = 0 := by
  unfold canMerge at h
  simp only [Bool.and_eq_true, beq_iff_eq, bne_iff_ne, ne_eq] at h
  tauto

theorem memP_parent_iff (a b : Entry) (h : canMerge a b = true) (h128 : a.plen ≤ 128)
    (t : Nat) :
    memP t (Entry.parent a) ↔ (memP t a ∨ memP t b) := by
  obtain ⟨hp, h0, hv, hb, hal⟩ := canMerge_spec a b h
  have hbsz : b.size = a.size := by unfold Entry.size; rw [hp]
  have hpsz : (Entry.parent a).size = 2 * a.size := by
    show 2 ^ (128 - (a.plen - 1)) = 2 * 2 ^ (128 - a.plen)
    have h1 : 128 - (a.plen - 1) = (128 - a.plen) + 1 := by omega
    rw [h1, pow_succ]
    exact Nat.mul_comm _ _
  have hpbase : (Entry.parent a).base = a.base := rfl
  unfold memP
  rw [hpsz, hpbase, hbsz, hb]
  omega

theorem EDisj_symm : ∀ {a b : Entry}, EDisj a b → EDisj b a :=
  fun h t hb ha => h t ha hb

theorem EDisj_base_ne (a b : Entry) (h : EDisj a b) : a.base ≠ b.base := by
  intro heq
  have hsa := size_pos a
  have hsb := size_pos b
  have hma : memP a.base a := by unfold memP; omega
  have hmb : memP a.base b := by unfold memP; omega
  exact h a.base hma hmb

theorem pairwise_EDisj_nodup_base (l : List Entry) (h : l.Pairwise EDisj) :
    (l.map Entry.base).Nodup := by
  have h2 : l.Pairwise (fun a b => a.base ≠ b.base) :=
    h.imp (fun hd => EDisj_base_ne _ _ hd)
  exact List.pairwise_map.2 h2

theorem mergeAtLevel_cons_pos (p : Nat) (a b : Entry) (rest : List Entry)
    (h : (a.plen == p && canMerge a b) = true) :
    mergeAtLevel p (a :: b :: rest) = Entry.parent a :: mergeAtLevel p rest := by
  rw [mergeAtLevel]
  simp [h]

theorem mergeAtLevel_cons_neg (p : Nat) (a b : Entry) (rest : List Entry)
    (h : ¬ (a.plen == p && canMerge a b) = true) :
    mergeAtLevel p (a :: b :: rest) = a :: mergeAtLevel p (b :: rest) := by
  rw [mergeAtLevel]
  simp [h]

theorem mergeAtLevel_singleton (p : Nat) (a : Entry) : mergeAtLevel p [a] = [a] := by
  rw [mergeAtLevel]

theorem mergeAtLevel_covers (p : Nat) (hple : p ≤ 128) :
    ∀ (l : List Entry), ∀ x ∈ mergeAtLevel p l, ∀ t, memP t x → ∃ e ∈ l, memP t e := by
  intro l
  induction l using mergeAtLevel.induct p with
  | case1 => intro x hx; rw [mergeAtLevel_nil] at hx; simp at hx
  | case2 a =>
    intro x hx t ht
    rw [mergeAtLevel_singleton] at hx
    simp only [List.mem_singleton] at hx
    exact ⟨a, by simp, hx ▸ ht⟩
  | case3 a b rest hcond ih =>
    intro x hx t ht
    rw [mergeAtLevel_cons_pos p a b rest hcond] at hx
    simp only [Bool.and_eq_true, beq_iff_eq] at hcond
    rcases List.mem_cons.1 hx with hx | hx
    · subst hx
      have h128 : a.plen ≤ 128 := by omega
      rcases (memP_parent_iff a b hcond.2 h128 t).1 ht with hm | hm
      · exact ⟨a, by simp, hm⟩
      · exact ⟨b, by simp, hm⟩
    · obtain ⟨e, he, hme⟩ := ih x hx t ht
      exact ⟨e, by simp [he], hme⟩
  | case4 a b rest hcond ih =>
    intro x hx t ht
    rw [mergeAtLevel_cons_neg p a b rest hcond] at hx
    rcases List.mem_cons.1 hx with hx | hx
    · subst hx
      exact ⟨x, by simp, ht⟩
    · obtain ⟨e, he, hme⟩ := ih x hx t ht
      refine ⟨e, ?_, hme⟩
      rcases List.mem_cons.1 he with he | he <;> simp [he]

theorem mergeAtLevel_lower (p : Nat) (c : Nat) :
    ∀ (l : List Entry), (∀ x ∈ l, c < x.base) → ∀ x ∈ mergeAtLevel p l, c < x.base := by
  intro l
  induction l using mergeAtLevel.induct p with
  | case1 => intro h x hx; rw [mergeAtLevel_nil] at hx; simp at hx
  | case2 a =>
    intro h x hx
    rw [mergeAtLevel_singleton] at hx
    simp only [List.mem_singleton] at hx
    exact hx ▸ h a (by simp)
  | case3 a b rest hcond ih =>
    intro h x hx
    rw [mergeAtLevel_cons_pos p a b rest hcond] at hx
    rcases List.mem_cons.1 hx with hx | hx
    · subst hx
      exact h a (by simp)
    · exact ih (fun y hy => h y (by simp [hy])) x hx
  | case4 a b rest hcond ih =>
    intro h x hx
    rw [mergeAtLevel_cons_neg p a b rest hcond] at hx
    rcases List.mem_cons.1 hx with hx | hx
    · subst hx
      exact h x (by simp)
    · exact ih (fun y hy => h y (by simp [List.mem_cons.1 hy])) x hx

theorem mergeAtLevel_sorted (p : Nat) :
    ∀ (l : List Entry), l.Pairwise (fun a b => a.base < b.base) →
      (mergeAtLevel p l).Pairwise (fun a b => a.base < b.base) := by
  intro l
  induction l using mergeAtLevel.induct p with
  | case1 => intro h; rw [mergeAtLevel_nil]; exact List.Pairwise.nil
  | case2 a => intro h; rw [mergeAtLevel_singleton]; exact h
  | case3 a b rest hcond ih =>
    intro h
    rw [mergeAtLevel_cons_pos p a b rest hcond]
    rw [List.pairwise_cons] at h
    obtain ⟨ha, h2⟩ := h
    rw [List.pairwise_cons] at h2
    obtain ⟨hbrest, hrest⟩ := h2
    rw [List.pairwise_cons]
    constructor
    · intro x hx
      exact mergeAtLevel_lower p a.base rest (fun y hy => ha y (by simp [hy])) x hx
    · exact ih hrest
  | case4 a b rest hcond ih =>
    intro h
    rw [mergeAtLevel_cons_neg p a b rest hcond]
    rw [List.pairwise_cons] at h
    obtain ⟨ha, h2⟩ := h
    rw [List.pairwise_cons]
    constructor
    · intro x hx
      exact mergeAtLevel_lower p a.base (b :: rest) ha x hx
    · exact ih h2

theorem mergeAtLevel_disj (p : Nat) (hple : p ≤ 128) :
    ∀ (l : List Entry), l.Pairwise EDisj → (mergeAtLevel p l).Pairwise EDisj := by
  intro l
  induction l using mergeAtLevel.induct p with
  | case1 => intro h; rw [mergeAtLevel_nil]; exact List.Pairwise.nil
  | case2 a => intro h; rw [mergeAtLevel_singleton]; exact h
  | case3 a b rest hcond ih =>
    intro h
    rw [mergeAtLevel_cons_pos p a b rest hcond]
    rw [List.pairwise_cons] at h
    obtain ⟨ha, h2⟩ := h
    rw [List.pairwise_cons] at h2
    obtain ⟨hb, hrest⟩ := h2
    rw [List.pairwise_cons]
    constructor
    · intro x hx t htp htx
      obtain ⟨e, he, hte⟩ := mergeAtLevel_covers p hple rest x hx t htx
      have hcond' := hcond
      simp only [Bool.and_eq_true, beq_iff_eq] at hcond'
      have h128 : a.plen ≤ 128 := by omega
      rcases (memP_parent_iff a b hcond'.2 h128 t).1 htp with hm | hm
      · exact ha e (by simp [he]) t hm hte
      · exact hb e he t hm hte
    · exact ih hrest
  | case4 a b rest hcond ih =>
    intro h
    rw [mergeAtLevel_cons_neg p a b rest hcond]
    rw [List.pairwise_cons] at h
    obtain ⟨ha, h2⟩ := h
    rw [List.pairwise_cons]
    constructor
    · intro x hx t hta htx
      obtain ⟨e, he, hte⟩ := mergeAtLevel_covers p hple (b :: rest) x hx t htx
      exact ha e he t hta hte
    · exact ih h2

theorem mergeAtLevel_mem_ne_level (p : Nat) :
    ∀ (l : List Entry) (e : Entry), e.plen ≠ p → e ∈ l → e ∈ mergeAtLevel p l := by
  intro l
  induction l using mergeAtLevel.induct p with
  | case1 => intro e h he; simp at he
  | case2 a => intro e h he; rw [mergeAtLevel_singleton]; exact he
  | case3 a b rest hcond ih =>
    intro e hne he
    rw [mergeAtLevel_cons_pos p a b rest hcond]
    simp only [Bool.and_eq_true, beq_iff_eq] at hcond
    obtain ⟨hpl, hcm⟩ := hcond
    obtain ⟨hpp, -, -, -, -⟩ := canMerge_spec a b hcm
    rcases List.mem_cons.1 he with he | he
    · exact absurd (by rw [he]; exact hpl) hne
    rcases List.mem_cons.1 he with he | he
    · exact absurd (by rw [he, ← hpp]; exact hpl) hne
    · exact List.mem_cons_of_mem _ (ih e hne he)
  | case4 a b rest hcond ih =>
    intro e hne he
    rw [mergeAtLevel_cons_neg p a b rest hcond]
    rcases List.mem_cons.1 he with he | he
    · simp [he]
    · exact List.mem_cons_of_mem _ (ih e hne he)

theorem mergeAtLevel_grow (p : Nat) (hple : p ≤ 128) :
    ∀ (l : List Entry), ∀ e ∈ l, ∃ e' ∈ mergeAtLevel p l,
      e'.val = e.val ∧ e'.plen ≤ e.plen ∧ ∀ t, memP t e → memP t e' := by
  intro l
  induction l using mergeAtLevel.induct p with
  | case1 => intro e he; simp at he
  | case2 a =>
    intro e he
    rw [mergeAtLevel_singleton]
    exact ⟨e, he, rfl, Nat.le_refl _, fun t ht => ht⟩
  | case3 a b rest hcond ih =>
    intro e he
    rw [mergeAtLevel_cons_pos p a b rest hcond]
    simp only [Bool.and_eq_true, beq_iff_eq] at hcond
    obtain ⟨hpl, hcm⟩ := hcond
    obtain ⟨hpp, h0, hv, hb, hal⟩ := canMerge_spec a b hcm
    have h128 : a.plen ≤ 128 := by omega
    rcases List.mem_cons.1 he with he | he
    · refine ⟨Entry.parent a, by simp, ?_, ?_, ?_⟩
      · rw [he]
        rfl
      · rw [he]
        exact Nat.sub_le _ _
      · intro t ht
        exact (memP_parent_iff a b hcm h128 t).2 (Or.inl (he ▸ ht))
    rcases List.mem_cons.1 he with he | he
    · refine ⟨Entry.parent a, by simp, ?_, ?_, ?_⟩
      · rw [he]; exact hv
      · rw [he]
        show a.plen - 1 ≤ b.plen
        omega
      · intro t ht
        exact (memP_parent_iff a b hcm h128 t).2 (Or.inr (he ▸ ht))
    · obtain ⟨e', he', h1, h2, h3⟩ := ih e he
      exact ⟨e', List.mem_cons_of_mem _ he', h1, h2, h3⟩
  | case4 a b rest hcond ih =>
    intro e he
    rw [mergeAtLevel_cons_neg p a b rest hcond]
    rcases List.mem_cons.1 he with he | he
    · exact ⟨e, by simp [he], rfl, Nat.le_refl _, fun t ht => ht⟩
    · obtain ⟨e', he', h1, h2, h3⟩ := ih e he
      exact ⟨e', List.mem_cons_of_mem _ he', h1, h2, h3⟩

theorem canMerge_chain_false (x e1 e2 : Entry)
    (h1 : canMerge x e1 = true) (h2 : canMerge e1 e2 = true) : False := by
  obtain ⟨hp1, h01, hv1, hb1, hal1⟩ := canMerge_spec x e1 h1
  obtain ⟨hp2, h02, hv2, hb2, hal2⟩ := canMerge_spec e1 e2 h2
  have hsz : e1.size = x.size := by unfold Entry.size; rw [hp1]
  rw [hsz, hb1] at hal2
  have hd1 : (2 * x.size) ∣ x.base := Nat.dvd_of_mod_eq_zero hal1
  have hd2 : (2 * x.size) ∣ (x.base + x.size) := Nat.dvd_of_mod_eq_zero hal2
  have hd3 : (2 * x.size) ∣ x.size := by
    have h4 := Nat.dvd_sub' hd2 hd1
    simpa [Nat.add_sub_cancel_left] using h4
  have hs := size_pos x
  have h5 := Nat.le_of_dvd hs hd3
  omega

theorem sorted_between_adjacent (e1 e2 : Entry) (hlt : e1.base < e2.base) :
    ∀ (l : List Entry), l.Pairwise (fun a b => a.base < b.base) →
      (∀ x ∈ l, ¬ (e1.base < x.base ∧ x.base < e2.base)) →
      e1 ∈ l → e2 ∈ l →
      ∃ pre post, l = pre ++ e1 :: e2 :: post := by
  intro l
  induction l with
  | nil => intro _ _ h1 _; simp at h1
  | cons hd tl ih =>
    intro hsort hnb h1 h2
    rw [List.pairwise_cons] at hsort
    obtain ⟨hhd, hsortT⟩ := hsort
    rcases List.mem_cons.1 h1 with he1 | he1
    · cases tl with
      | nil =>
        exfalso
        rcases List.mem_cons.1 h2 with h | h
        · rw [he1] at hlt
          rw [h] at hlt
          omega
        · simp at h
      | cons t0 ttl =>
        rcases List.mem_cons.1 h2 with h | h
        · exfalso
          rw [he1, h] at hlt
          omega
        rcases List.mem_cons.1 h with h | h
        · refine ⟨[], ttl, ?_⟩
          rw [← he1, ← h]
          rfl
        · exfalso
          rw [List.pairwise_cons] at hsortT
          have h1t : t0.base < e2.base := hsortT.1 e2 h
          have h2t : e1.base < t0.base := by
            rw [he1]
            exact hhd t0 (by simp)
          exact hnb t0 (by simp) ⟨h2t, h1t⟩
    · have he2 : e2 ∈ tl := by
        rcases List.mem_cons.1 h2 with h | h
        · exfalso
          have ha := hhd e1 he1
          rw [h] at hlt
          omega
        · exact h
      obtain ⟨pre, post, heq⟩ := ih hsortT
        (fun x hx => hnb x (List.mem_cons_of_mem _ hx)) he1 he2
      refine ⟨hd :: pre, post, ?_⟩
      rw [heq]
      rfl

theorem mergeAtLevel_hits (p : Nat) (e1 e2 : Entry) (hm : canMerge e1 e2 = true)
    (hp : e1.plen = p) :
    ∀ (l : List Entry), (∃ pre post, l = pre ++ e1 :: e2 :: post) →
      Entry.parent e1 ∈ mergeAtLevel p l := by
  intro l
  induction l using mergeAtLevel.induct p with
  | case1 =>
    rintro ⟨pre, post, heq⟩
    exact absurd heq (by simp)
  | case2 a =>
    rintro ⟨pre, post, heq⟩
    exfalso
    have hlen := congrArg List.length heq
    simp at hlen
    omega
  | case3 a b rest hcond ih =>
    rintro ⟨pre, post, heq⟩
    rw [mergeAtLevel_cons_pos p a b rest hcond]
    cases pre with
    | nil =>
      simp only [List.nil_append, List.cons.injEq] at heq
      obtain ⟨ha, -, -⟩ := heq
      simp [ha]
    | cons x pre' =>
      cases pre' with
      | nil =>
        simp only [List.cons_append, List.nil_append, List.cons.injEq] at heq
        obtain ⟨-, hbe1, -⟩ := heq
        exfalso
        simp only [Bool.and_eq_true, beq_iff_eq] at hcond
        exact canMerge_chain_false a e1 e2 (by rw [← hbe1]; exact hcond.2) hm
      | cons y pre'' =>
        simp only [List.cons_append, List.cons.injEq] at heq
        obtain ⟨-, -, hrest⟩ := heq
        exact List.mem_cons_of_mem _ (ih ⟨pre'', post, hrest⟩)
  | case4 a b rest hcond ih =>
    rintro ⟨pre, post, heq⟩
    rw [mergeAtLevel_cons_neg p a b rest hcond]
    cases pre with
    | nil =>
      simp only [List.nil_append, List.cons.injEq] at heq
      obtain ⟨ha, hbb, -⟩ := heq
      exfalso
      apply hcond
      rw [ha, hbb]
      simp [hp, hm]
    | cons x pre' =>
      simp only [List.cons_append, List.cons.injEq] at heq
      obtain ⟨-, hrest⟩ := heq
      exact List.mem_cons_of_mem _ (ih ⟨pre', post, hrest⟩)

theorem foldl_merge_invariants :
    ∀ (L : List Nat), (∀ q ∈ L, q ≤ 128) →
      ∀ (l : List Entry), l.Pairwise (fun a b => a.base < b.base) → l.Pairwise EDisj →
      (L.foldl (fun acc q => mergeAtLevel q acc) l).Pairwise (fun a b => a.base < b.base) ∧
        (L.foldl (fun acc q => mergeAtLevel q acc) l).Pairwise EDisj := by
  intro L
  induction L with
  | nil => intro _ l hs hd; exact ⟨hs, hd⟩
  | cons q L ih =>
    intro hL l hs hd
    rw [List.foldl_cons]
    exact ih (fun r hr => hL r (by simp [hr])) _ (mergeAtLevel_sorted q l hs)
      (mergeAtLevel_disj q (hL q (by simp)) l hd)

theorem foldl_merge_mem :
    ∀ (L : List Nat) (e : Entry), (∀ q ∈ L, q ≠ e.plen) →
      ∀ (l : List Entry), e ∈ l → e ∈ L.foldl (fun acc q => mergeAtLevel q acc) l := by
  intro L
  induction L with
  | nil => intro e _ l he; exact he
  | cons q L ih =>
    intro e hq l he
    rw [List.foldl_cons]
    exact ih e (fun r hr => hq r (by simp [hr])) _
      (mergeAtLevel_mem_ne_level q l e (fun h => hq q (by simp) h.symm) he)

theorem foldl_merge_grow :
    ∀ (L : List Nat), (∀ q ∈ L, q ≤ 128) →
      ∀ (l : List Entry) (e : Entry), e ∈ l →
      ∃ e' ∈ L.foldl (fun acc q => mergeAtLevel q acc) l,
        e'.val = e.val ∧ e'.plen ≤ e.plen ∧ ∀ t, memP t e → memP t e' := by
  intro L
  induction L with
  | nil => intro _ l e he; exact ⟨e, he, rfl, Nat.le_refl _, fun t ht => ht⟩
  | cons q L ih =>
    intro hL l e he
    rw [List.foldl_cons]
    obtain ⟨f1, hf1, hv1, hp1, hc1⟩ := mergeAtLevel_grow q (hL q (by simp)) l e he
    obtain ⟨f2, hf2, hv2, hp2, hc2⟩ := ih (fun r hr => hL r (by simp [hr])) _ f1 hf1
    exact ⟨f2, hf2, hv2.trans hv1, hp2.trans hp1, fun t ht => hc2 t (hc1 t ht)⟩

theorem levelSeq_mem_le (n : Nat) : ∀ q ∈ levelSeq n, 1 ≤ q ∧ q ≤ n := by
  induction n with
  | zero => intro q hq; simp [levelSeq] at hq
  | succ n ih =>
    intro q hq
    rw [levelSeq] at hq
    rcases List.mem_cons.1 hq with h | h
    · omega
    · have h2 := ih q h
      omega

theorem levelSeq_split (p : Nat) (hp1 : 1 ≤ p) :
    ∀ n, p ≤ n → ∃ L1, levelSeq n = L1 ++ levelSeq p ∧ ∀ q ∈ L1, p < q ∧ q ≤ n := by
  intro n
  induction n with
  | zero => intro h; omega
  | succ n ih =>
    intro h2
    by_cases hp : p = n + 1
    · refine ⟨[], ?_, by simp⟩
      rw [hp]
      rfl
    · obtain ⟨L1, hL1, hq⟩ := ih (by omega)
      refine ⟨(n + 1) :: L1, ?_, ?_⟩
      · rw [levelSeq, hL1]
        rfl
      · intro q hq'
        rcases List.mem_cons.1 hq' with h | h
        · omega
        · have h3 := hq q h
          omega

/-- C3: two retained entries that are the two address-adjacent halves of a
parent network (equal prefix length, identical attribute values — the
`canMerge` condition) do not survive normalization individually: the
normalized output contains a single entry with the same value and a
strictly shorter prefix covering both of them, and neither half itself. -/
theorem adjacent_equal_sibling_entries_merge (l : List Entry) (e1 e2 : Entry)
    (hdisj : l.Pairwise EDisj) (h1 : e1 ∈ l) (h2 : e2 ∈ l)
    (hm : canMerge e1 e2 = true) (h128 : e1.plen ≤ 128) :
    (∃ e ∈ normalizeNets l, e.val = e1.val ∧ e.plen < e1.plen ∧
        ∀ t, memP t e1 ∨ memP t e2 → memP t e) ∧
      e1 ∉ normalizeNets l ∧ e2 ∉ normalizeNets l := by
  obtain ⟨hpp, h0, hv, hb, hal⟩ := canMerge_spec e1 e2 hm
  have hsymm : Symmetric EDisj := fun a b h => EDisj_symm h
  have hnd : (l.map Entry.base).Nodup := pairwise_EDisj_nodup_base l hdisj
  have hsort0 : (sortEntries l).Pairwise (fun a b => a.base < b.base) :=
    sortEntries_sorted_lt l hnd
  have hdisj0 : (sortEntries l).Pairwise EDisj :=
    ((sortEntries_perm l).pairwise_iff (fun h => EDisj_symm h)).2 hdisj
  have h1s : e1 ∈ sortEntries l := (sortEntries_perm l).mem_iff.2 h1
  have h2s : e2 ∈ sortEntries l := (sortEntries_perm l).mem_iff.2 h2
  have hp1 : 1 ≤ e1.plen := by omega
  obtain ⟨L1, hL1eq, hL1⟩ := levelSeq_split e1.plen hp1 128 h128
  have hps : levelSeq e1.plen = e1.plen :: levelSeq (e1.plen - 1) := by
    cases hcase : e1.plen with
    | zero => omega
    | succ m =>
      rw [levelSeq]
      congr 1
  have hnorm : normalizeNets l =
      (levelSeq (e1.plen - 1)).foldl (fun acc q => mergeAtLevel q acc)
        (mergeAtLevel e1.plen
          (L1.foldl (fun acc q => mergeAtLevel q acc) (sortEntries l))) := by
    unfold normalizeNets
    rw [hL1eq, hps, List.foldl_append, List.foldl_cons]
  obtain ⟨hsort1, hdisj1⟩ := foldl_merge_invariants L1 (fun q hq => (hL1 q hq).2) _
    hsort0 hdisj0
  have h1m : e1 ∈ L1.foldl (fun acc q => mergeAtLevel q acc) (sortEntries l) :=
    foldl_merge_mem L1 e1 (fun q hq => by have h3 := (hL1 q hq).1; omega) _ h1s
  have h2m : e2 ∈ L1.foldl (fun acc q => mergeAtLevel q acc) (sortEntries l) :=
    foldl_merge_mem L1 e2 (fun q hq => by have h3 := (hL1 q hq).1; omega) _ h2s
  have hlt : e1.base < e2.base := by
    have h3 := size_pos e1
    omega
  have hnb : ∀ x ∈ L1.foldl (fun acc q => mergeAtLevel q acc) (sortEntries l),
      ¬ (e1.base < x.base ∧ x.base < e2.base) := by
    rintro x hx ⟨hx1, hx2⟩
    have hxne : x ≠ e1 := fun h => by rw [h] at hx1; omega
    have hd := List.Pairwise.forall hsymm hdisj1 hx h1m hxne
    have hmx : memP x.base x := by
      unfold memP
      have h3 := size_pos x
      omega
    have hm1 : memP x.base e1 := by unfold memP; omega
    exact hd x.base hmx hm1
  obtain ⟨pre, post, hdecomp⟩ := sorted_between_adjacent e1 e2 hlt _ hsort1 hnb h1m h2m
  have hparent : Entry.parent e1 ∈
      mergeAtLevel e1.plen (L1.foldl (fun acc q => mergeAtLevel q acc) (sortEntries l)) :=
    mergeAtLevel_hits e1.plen e1 e2 hm rfl _ ⟨pre, post, hdecomp⟩
  have hLp : ∀ q ∈ levelSeq (e1.plen - 1), q ≤ 128 := by
    intro q hq
    have h3 := levelSeq_mem_le (e1.plen - 1) q hq
    omega
  obtain ⟨e', he', hval, hplen, hcov⟩ := foldl_merge_grow (levelSeq (e1.plen - 1)) hLp _ _
    hparent
  rw [← hnorm] at he'
  have hppl : (Entry.parent e1).plen = e1.plen - 1 := rfl
  have hmain : ∃ e ∈ normalizeNets l, e.val = e1.val ∧ e.plen < e1.plen ∧
      ∀ t, memP t e1 ∨ memP t e2 → memP t e := by
    refine ⟨e', he', ?_, by omega, ?_⟩
    · rw [hval]
      rfl
    · intro t ht
      apply hcov
      exact (memP_parent_iff e1 e2 hm h128 t).2 ht
  obtain ⟨hsortN, hdisjN⟩ := foldl_merge_invariants (levelSeq (e1.plen - 1)) hLp _
    (mergeAtLevel_sorted e1.plen _ hsort1)
    (mergeAtLevel_disj e1.plen h128 _ hdisj1)
  rw [← hnorm] at hdisjN
  refine ⟨hmain, ?_, ?_⟩
  · intro hcontra
    obtain ⟨f, hfN, hfval, hfplt, hfcov⟩ := hmain
    have hne : e1 ≠ f := fun h => by rw [← h] at hfplt; omega
    have hd := List.Pairwise.forall hsymm hdisjN hcontra hfN hne
    have hm1 : memP e1.base e1 := by
      unfold memP
      have h3 := size_pos e1
      omega
    exact hd e1.base hm1 (hfcov e1.base (Or.inl hm1))
  · intro hcontra
    obtain ⟨f, hfN, hfval, hfplt, hfcov⟩ := hmain
    have hne : e2 ≠ f := fun h => by rw [← h] at hfplt; omega
    have hd := List.Pairwise.forall hsymm hdisjN hcontra hfN hne
    have hm2 : memP e2.base e2 := by
      unfold memP
      have h3 := size_pos e2
      omega
    exact hd e2.base hm2 (hfcov e2.base (Or.inr hm2))

/-- Witness for C3: the spec's example — `203.0.113.0/25` and
`203.0.113.128/25`, both tagged JP, merge into their /24 parent. -/
theorem adjacent_equal_sibling_entries_merge_witness :
    (List.Pairwise EDisj [jpLeft, jpRight] ∧ jpLeft ∈ [jpLeft, jpRight] ∧
      jpRight ∈ [jpLeft, jpRight] ∧ canMerge jpLeft jpRight = true ∧
      jpLeft.plen ≤ 128) ∧
    ((∃ e ∈ normalizeNets [jpLeft, jpRight], e.val = jpLeft.val ∧
        e.plen < jpLeft.plen ∧ ∀ t, memP t jpLeft ∨ memP t jpRight → memP t e) ∧
      jpLeft ∉ normalizeNets [jpLeft, jpRight] ∧
      jpRight ∉ normalizeNets [jpLeft, jpRight]) := by
  have hdisj : List.Pairwise EDisj [jpLeft, jpRight] := by
    refine List.Pairwise.cons ?_
      (List.Pairwise.cons (by intro b hb; simp at hb) List.Pairwise.nil)
    intro b hb
    have hb' : b = jpRight := by simpa using hb
    subst hb'
    intro t h1 h2
    unfold memP at h1 h2
    simp only [jpLeft, jpRight, Entry.size, v4addr] at h1 h2
    norm_num at h1 h2
    omega
  refine ⟨⟨hdisj, by decide, by decide, by decide, by decide⟩, ?_⟩
  exact adjacent_equal_sibling_entries_merge [jpLeft, jpRight] jpLeft jpRight hdisj
    (by decide) (by decide) (by decide) (by decide)
